import Mathlib

/-!
# Verification of the dotcoin chain store (`chain/blockchain.go`)

A shallow embedding of the blockchain operations of `chain/blockchain.go`:
`AddBlock`, `MineBlock`, `FindUTXO`, `FindTransaction`, `VerifyTransaction`,
`GetBestHeight` and `GetBlockHashes`, together with theorems about them.

Modelling conventions:
* Byte slices (hashes, keys) are `List Nat`; the bolt bucket is an
  association list from keys to deserialized blocks, plus a separate field
  for the reserved last-hash key (`storage.BoltLastHashKey`), which in the
  real store is a distinct key of the same bucket.  Block serialization is
  an exact inverse pair (round-trip), so storing the deserialized block is
  faithful.
* Go's `int32` heights and output indices become `Int` (no overflow occurs
  at the scales the code handles).
* `log.Panic` (a fatal halt) is modelled by `Option`: `none` is a panic.
* Hex-string map keys (`tx.StringID()`, `outpoint.StringHash()`) are
  injective images of the underlying hashes, so the raw hash is used as the
  key.
* The chain iterator (its source file is not part of the visible core) is
  modelled from the spec: `Next` yields the block at the current hash and
  moves to its `PrevBlockHash`, and is terminal once the block with an
  empty `PrevBlockHash` (genesis) has been yielded or a hash is absent.
  Functions that consume the iterator are therefore stated over the list
  of blocks the iterator yields, tip first.
-/

namespace Dotcoin

/-- A transaction output: `TXOutput{Value int, PubKeyHash []byte}`. -/
structure TXOutput where
  Value : Int
  PubKeyHash : List Nat
deriving DecidableEq, Repr

/-- An outpoint: `OutPoint{Hash hashx.Hash, Index int32}`, the reference a
transaction input makes to a prior transaction's output. -/
structure OutPoint where
  Hash : List Nat
  Index : Int
deriving DecidableEq, Repr

/-- A transaction input, modelled from the spec:
`{previousOutput, unlockingSignature, unlockingKey}`. -/
structure TXInput where
  PreviousOutPoint : OutPoint
  Signature : List Nat
  PubKey : List Nat
deriving DecidableEq, Repr

/-- A transaction: `{ID, Inputs, Outputs}`. -/
structure Transaction where
  ID : List Nat
  Inputs : List TXInput
  Outputs : List TXOutput
deriving DecidableEq, Repr

/-- Modelled from the spec: a coinbase transaction has exactly one input
referencing a null/zero previous output (zero hash, index `-1`). -/
def isNullOutPoint (op : OutPoint) : Bool :=
  op.Hash.all (· == 0) && op.Index == -1

/-- Modelled from the spec: `IsCoinbase() -> bool` is true iff the
transaction has exactly one input referencing a null/zero previous
output. -/
def Transaction.IsCoinBase (tx : Transaction) : Bool :=
  match tx.Inputs with
  | [i] => isNullOutPoint i.PreviousOutPoint
  | _ => false

/-- A block: header fields plus its transaction list
(`Block{Hash, PrevBlockHash, Height, Nonce, Transactions}`). -/
structure Block where
  Hash : List Nat
  PrevBlockHash : List Nat
  Height : Int
  Nonce : Int
  Transactions : List Transaction
deriving DecidableEq, Repr

/-- Association-list lookup, the bucket's `Get` for block keys. -/
def lookupA {α : Type} : List (List Nat × α) → List Nat → Option α
  | [], _ => none
  | p :: rest, k => if p.1 == k then some p.2 else lookupA rest k

/-- Association-list store, the bucket's `Put`: overwrite an existing key,
otherwise add the binding. -/
def putA {α : Type} : List (List Nat × α) → List Nat → α → List (List Nat × α)
  | [], k, v => [(k, v)]
  | p :: rest, k, v =>
    if p.1 == k then (k, v) :: rest else p :: putA rest k v

/-- The bolt block bucket: serialized blocks keyed by hash, plus the
reserved `BoltLastHashKey` entry holding the tip hash. -/
structure Bucket where
  blocks : List (List Nat × Block)
  lastHash : Option (List Nat)
deriving DecidableEq, Repr

/-- The `Blockchain` struct fields the chain operations touch: the
in-memory `lastBlockHash` cache and the persisted bucket. -/
structure Blockchain where
  lastBlockHash : List Nat
  bucket : Bucket
deriving DecidableEq, Repr

/-- The best height exactly as `AddBlock` reads it from the persisted
store: fetch the reserved last-hash key, fetch the block stored under it;
a missing key or missing block data reads as height `0`. -/
def readBestHeight (b : Bucket) : Int :=
  match b.lastHash with
  | none => 0
  | some lastHash =>
    match lookupA b.blocks lastHash with
    | none => 0
    | some lastBlock => lastBlock.Height

/-- `Blockchain.AddBlock` (blockchain.go:158): inside one store
transaction, no-op when the hash is already present; otherwise persist the
block, read the best height from the persisted tip, and when
`block.Height >= bestHeight` advance both the persisted tip key and the
in-memory `lastBlockHash`. -/
def AddBlock (bc : Blockchain) (block : Block) : Blockchain :=
  match lookupA bc.bucket.blocks block.Hash with
  | some _ => bc
  | none =>
    let blocks1 := putA bc.bucket.blocks block.Hash block
    let bestHeight : Int :=
      match bc.bucket.lastHash with
      | none => 0
      | some lastHash =>
        match lookupA blocks1 lastHash with
        | none => 0
        | some lastBlock => lastBlock.Height
    if block.Height ≥ bestHeight then
      { lastBlockHash := block.Hash,
        bucket := { blocks := blocks1, lastHash := some block.Hash } }
    else
      { bc with bucket := { bc.bucket with blocks := blocks1 } }

theorem lookupA_putA_self {α : Type} (m : List (List Nat × α)) (k : List Nat)
    (v : α) : lookupA (putA m k v) k = some v := by
  induction m with
  | nil => simp [putA, lookupA]
  | cons p rest ih =>
    by_cases hpk : p.1 = k
    · simp [putA, lookupA, hpk]
    · simp [putA, lookupA, hpk, ih]

theorem lookupA_putA_of_ne {α : Type} (m : List (List Nat × α))
    (k k' : List Nat) (v : α) (h : k' ≠ k) :
    lookupA (putA m k v) k' = lookupA m k' := by
  induction m with
  | nil => simp [putA, lookupA, Ne.symm h]
  | cons p rest ih =>
    by_cases hpk : p.1 = k
    · simp [putA, lookupA, hpk, Ne.symm h]
    · by_cases hpk' : p.1 = k'
      · simp [putA, lookupA, hpk, hpk', h]
      · simp [putA, lookupA, hpk, hpk', h, ih]

theorem addBlock_of_mem (bc : Blockchain) (block : Block) (b : Block)
    (h : lookupA bc.bucket.blocks block.Hash = some b) :
    AddBlock bc block = bc := by
  unfold AddBlock
  rw [h]

/-- C1: adding a block whose hash is not yet stored persists the block, and
the tip (the persisted last-hash key, mirrored by the in-memory cache)
advances to it exactly when its height is at least the best height read
from the persisted store; equal height therefore replaces the tip. -/
theorem addBlock_persists_and_tip (bc : Blockchain) (block : Block)
    (habs : lookupA bc.bucket.blocks block.Hash = none)
    (hW : bc.bucket.lastHash ≠ some block.Hash) :
    lookupA (AddBlock bc block).bucket.blocks block.Hash = some block ∧
    ((AddBlock bc block).bucket.lastHash = some block.Hash ↔
      block.Height ≥ readBestHeight bc.bucket) ∧
    (block.Height ≥ readBestHeight bc.bucket →
      (AddBlock bc block).lastBlockHash = block.Hash) := by
  have hbest :
      (match bc.bucket.lastHash with
        | none => (0 : Int)
        | some lastHash =>
          match lookupA (putA bc.bucket.blocks block.Hash block) lastHash with
          | none => 0
          | some lastBlock => lastBlock.Height) = readBestHeight bc.bucket := by
    unfold readBestHeight
    cases hlh : bc.bucket.lastHash with
    | none => rfl
    | some lastHash =>
      have hne : lastHash ≠ block.Hash := fun he => hW (by rw [hlh, he])
      simp only [lookupA_putA_of_ne _ _ _ _ hne]
  unfold AddBlock
  rw [habs]
  simp only [hbest]
  by_cases hge : block.Height ≥ readBestHeight bc.bucket
  · simp only [if_pos hge]
    refine ⟨lookupA_putA_self _ _ _, ?_, ?_⟩
    · simp [hge]
    · intro _
      trivial
  · simp only [if_neg hge]
    refine ⟨lookupA_putA_self _ _ _, ?_, fun h => absurd h hge⟩
    constructor
    · intro h
      exact absurd h hW
    · intro h
      exact absurd h hge

/-- C2: `AddBlock` is idempotent — when the block's hash already exists in
the store the call is a no-op, and calling `AddBlock` twice with the same
block leaves the chain state identical to calling it once. -/
theorem addBlock_idempotent (bc : Blockchain) (block : Block) :
    ((lookupA bc.bucket.blocks block.Hash).isSome = true →
      AddBlock bc block = bc) ∧
    AddBlock (AddBlock bc block) block = AddBlock bc block := by
  refine ⟨?_, ?_⟩
  · intro h
    obtain ⟨b, hb⟩ := Option.isSome_iff_exists.mp h
    exact addBlock_of_mem bc block b hb
  · cases hl : lookupA bc.bucket.blocks block.Hash with
    | some b =>
      have h1 := addBlock_of_mem bc block b hl
      rw [h1]
      exact h1
    | none =>
      have hstored :
          lookupA (AddBlock bc block).bucket.blocks block.Hash = some block := by
        unfold AddBlock
        rw [hl]
        simp only
        split <;> simp [lookupA_putA_self]
      exact addBlock_of_mem _ block block hstored

/-- A concrete coinbase transaction used by the witnesses. -/
def cbTx0 : Transaction :=
  { ID := [10],
    Inputs := [{ PreviousOutPoint := { Hash := [0], Index := -1 },
                 Signature := [], PubKey := [] }],
    Outputs := [{ Value := 10, PubKeyHash := [7] }] }

/-- A concrete genesis block used by the witnesses. -/
def genesisW : Block :=
  { Hash := [1], PrevBlockHash := [], Height := 0, Nonce := 0,
    Transactions := [cbTx0] }

/-- A concrete competing block of equal height used by the witnesses. -/
def blockW : Block :=
  { Hash := [2], PrevBlockHash := [1], Height := 0, Nonce := 0,
    Transactions := [] }

/-- A concrete one-block chain state used by the witnesses. -/
def bcW : Blockchain :=
  { lastBlockHash := [1],
    bucket := { blocks := [([1], genesisW)], lastHash := some [1] } }

theorem addBlock_persists_and_tip_witness :
    lookupA bcW.bucket.blocks blockW.Hash = none ∧
    bcW.bucket.lastHash ≠ some blockW.Hash ∧
    (lookupA (AddBlock bcW blockW).bucket.blocks blockW.Hash = some blockW ∧
      ((AddBlock bcW blockW).bucket.lastHash = some blockW.Hash ↔
        blockW.Height ≥ readBestHeight bcW.bucket) ∧
      (blockW.Height ≥ readBestHeight bcW.bucket →
        (AddBlock bcW blockW).lastBlockHash = blockW.Hash)) :=
  ⟨by decide, by decide,
    addBlock_persists_and_tip bcW blockW (by decide) (by decide)⟩

theorem addBlock_idempotent_witness :
    AddBlock bcW genesisW = bcW ∧
    AddBlock (AddBlock bcW genesisW) genesisW = AddBlock bcW genesisW :=
  ⟨(addBlock_idempotent bcW genesisW).1 (by decide),
    (addBlock_idempotent bcW genesisW).2⟩

/-- All transactions of a chain, in the order the tip-to-genesis scan
visits them. -/
def chainTxs (chain : List Block) : List Transaction :=
  chain.flatMap (fun b => b.Transactions)

theorem chainTxs_cons (b : Block) (rest : List Block) :
    chainTxs (b :: rest) = b.Transactions ++ chainTxs rest := by
  simp [chainTxs]

/-- A genesis-terminated iterator yield: no block before the last one has
an empty `PrevBlockHash`, so the scan loops that break at genesis visit
the entire list. -/
def noEarlyGenesis : List Block → Bool
  | [] => true
  | [_] => true
  | b :: rest => !(b.PrevBlockHash == List.nil) && noEarlyGenesis rest

/-- `Blockchain.FindTransaction` (blockchain.go:348): scan blocks from the
tip, return the first transaction whose ID matches, stop after the genesis
block (empty `PrevBlockHash`); `none` models `ErrorNotFoundTransaction`. -/
def FindTransaction : List Block → List Nat → Option Transaction
  | [], _ => none
  | b :: rest, i =>
    match b.Transactions.find? (fun tx => tx.ID == i) with
    | some tx => some tx
    | none =>
      if b.PrevBlockHash == List.nil then none else FindTransaction rest i

theorem findTransaction_eq_find? (chain : List Block) (i : List Nat)
    (hwf : noEarlyGenesis chain = true) :
    FindTransaction chain i = (chainTxs chain).find? (fun tx => tx.ID == i) := by
  induction chain with
  | nil => simp [FindTransaction, chainTxs]
  | cons b rest ih =>
    rw [chainTxs_cons, List.find?_append]
    cases hf : b.Transactions.find? (fun tx => tx.ID == i) with
    | some tx => simp [FindTransaction, hf]
    | none =>
      simp only [FindTransaction, hf, Option.none_or]
      cases rest with
      | nil =>
        simp [FindTransaction, chainTxs]
      | cons r rs =>
        have hg : (b.PrevBlockHash == List.nil) = false := by
          by_contra hc
          simp only [noEarlyGenesis, Bool.and_eq_true, Bool.not_eq_true'] at hwf
          simp [hwf.1] at hc
        have hrest : noEarlyGenesis (r :: rs) = true := by
          simp only [noEarlyGenesis, Bool.and_eq_true] at hwf
          exact hwf.2
        rw [hg]
        simp only [Bool.false_eq_true, if_false]
        exact ih hrest

/-- C7: `FindTransaction` scans the chain linearly from the tip and
returns the first transaction with the given id, and it fails (with
`ErrorNotFoundTransaction`, modelled as `none`) exactly when no
transaction in the canonical chain carries that id. -/
theorem findTransaction_spec (chain : List Block) (i : List Nat)
    (hwf : noEarlyGenesis chain = true) :
    FindTransaction chain i = (chainTxs chain).find? (fun tx => tx.ID == i) ∧
    (FindTransaction chain i = none ↔ ∀ tx ∈ chainTxs chain, tx.ID ≠ i) := by
  have h1 := findTransaction_eq_find? chain i hwf
  refine ⟨h1, ?_⟩
  rw [h1, List.find?_eq_none]
  simp

theorem findTransaction_spec_witness :
    noEarlyGenesis [blockW, genesisW] = true ∧
    (FindTransaction [blockW, genesisW] [10] =
        (chainTxs [blockW, genesisW]).find? (fun tx => tx.ID == [10]) ∧
      (FindTransaction [blockW, genesisW] [10] = none ↔
        ∀ tx ∈ chainTxs [blockW, genesisW], tx.ID ≠ [10])) :=
  ⟨by decide, findTransaction_spec [blockW, genesisW] [10] (by decide)⟩

/-- The prior-transaction map `SignTransaction`/`VerifyTransaction` build:
resolve each input's referenced transaction through `FindTransaction`,
keyed by the found transaction's id (`StringID` is an injective hex image
of the id); a failed resolution is a `log.Panic`, modelled as `none`. -/
def collectPrevTXs (chain : List Block) :
    List TXInput → Option (List (List Nat × Transaction))
  | [] => some []
  | vin :: rest =>
    match FindTransaction chain vin.PreviousOutPoint.Hash with
    | none => none
    | some prevTX =>
      (collectPrevTXs chain rest).map (fun l => (prevTX.ID, prevTX) :: l)

/-- `Blockchain.VerifyTransaction` (blockchain.go:371): coinbase
transactions verify trivially; otherwise resolve every referenced prior
transaction (fatal if missing) and delegate to the transaction model's
signature check, kept abstract as `sigVerify`. -/
def VerifyTransaction
    (sigVerify : Transaction → List (List Nat × Transaction) → Bool)
    (chain : List Block) (tx : Transaction) : Option Bool :=
  if tx.IsCoinBase then some true
  else
    match collectPrevTXs chain tx.Inputs with
    | none => none
    | some prevTXs => some (sigVerify tx prevTXs)

/-- C8: for every coinbase transaction, `VerifyTransaction` returns true
without consulting the chain or the signature checker: the result is
`some true` for every chain and every `sigVerify`, so no prior
transaction is ever resolved. -/
theorem verifyTransaction_coinbase
    (sigVerify : Transaction → List (List Nat × Transaction) → Bool)
    (chain : List Block) (tx : Transaction) (h : tx.IsCoinBase = true) :
    VerifyTransaction sigVerify chain tx = some true := by
  simp [VerifyTransaction, h]

theorem verifyTransaction_coinbase_witness :
    cbTx0.IsCoinBase = true ∧
    VerifyTransaction (fun _ _ => false) [] cbTx0 = some true :=
  ⟨by decide, verifyTransaction_coinbase (fun _ _ => false) [] cbTx0 (by decide)⟩

/-- `Blockchain.GetBestHeight` (blockchain.go:400), as a function of the
outcome of `storage.GetLastBlock`: `none` models the storage call failing
with an error, `some (lastHash, none)` a successful call that found no
block data, `some (lastHash, some b)` a successful call returning block
`b`'s serialized bytes. -/
def GetBestHeight (r : Option (Option (List Nat) × Option Block)) : Int :=
  match r with
  | none => 0
  | some (_, none) => 0
  | some (_, some lastBlock) => lastBlock.Height

/-- C10: `GetBestHeight` returns 0 both when the storage read fails with
an error and when no block exists, so at this interface a storage failure
is indistinguishable from an empty chain. -/
theorem getBestHeight_error_indistinguishable :
    GetBestHeight none = 0 ∧
    (∀ lastHash : Option (List Nat), GetBestHeight (some (lastHash, none)) = 0) :=
  ⟨rfl, fun _ => rfl⟩

/-- The collecting loop of `Blockchain.GetBlockHashes` (blockchain.go:443):
per visited block, first compare against `stopHash` (the stop block itself
is not collected), then collect the hash, then break if the block is
genesis, then break if `maxNum` hashes have been collected. -/
def getBlockHashesLoop (stopHash : List Nat) (maxNum : Int) :
    List Block → Int → List (List Nat)
  | [], _ => []
  | b :: rest, getCount =>
    if b.Hash == stopHash then []
    else if b.PrevBlockHash == List.nil then [b.Hash]
    else if getCount + 1 ≥ maxNum then [b.Hash]
    else b.Hash :: getBlockHashesLoop stopHash maxNum rest (getCount + 1)

/-- `Blockchain.GetBlockHashes` (blockchain.go:434), over the list of
blocks the iterator yields once repositioned at `beginHash` (tip side
first). -/
def GetBlockHashes (chain : List Block) (stopHash : List Nat)
    (maxNum : Int) : List (List Nat) :=
  getBlockHashesLoop stopHash maxNum chain 0

/-- How many hashes the walk collects: the first of — position of the
stop hash (exclusive), position of the genesis block (inclusive), and the
`maxNum` bound (which always lets at least one hash through). -/
def stopCount (chain : List Block) (stopHash : List Nat) (maxNum : Int) : Nat :=
  min (chain.findIdx (fun b => b.Hash == stopHash))
    (min (chain.findIdx (fun b => b.PrevBlockHash == List.nil) + 1)
      (max 1 maxNum).toNat)

theorem getBlockHashesLoop_eq (stopHash : List Nat) (maxNum : Int)
    (chain : List Block) (cnt : Int) :
    getBlockHashesLoop stopHash maxNum chain cnt =
      (chain.take (min (chain.findIdx (fun b => b.Hash == stopHash))
          (min (chain.findIdx (fun b => b.PrevBlockHash == List.nil) + 1)
            (max 1 (maxNum - cnt)).toNat))).map (fun b => b.Hash) := by
  induction chain generalizing cnt with
  | nil => simp [getBlockHashesLoop]
  | cons b rest ih =>
    rw [getBlockHashesLoop]
    by_cases hstop : (b.Hash == stopHash) = true
    · simp [List.findIdx_cons, hstop]
    · have hstop' : (b.Hash == stopHash) = false := by simpa using hstop
      by_cases hgen : (b.PrevBlockHash == List.nil) = true
      · rw [if_neg (by simp [hstop]), if_pos hgen,
          List.findIdx_cons, List.findIdx_cons]
        simp only [hstop', hgen, cond_false, cond_true]
        have hmin :
            min (rest.findIdx (fun x => x.Hash == stopHash) + 1)
              (min (0 + 1) (max 1 (maxNum - cnt)).toNat) = 1 := by
          omega
        rw [hmin]
        simp
      · have hgen' : (b.PrevBlockHash == List.nil) = false := by simpa using hgen
        by_cases hcnt : cnt + 1 ≥ maxNum
        · rw [if_neg (by simp [hstop]), if_neg (by simp [hgen]), if_pos hcnt,
            List.findIdx_cons, List.findIdx_cons]
          simp only [hstop', hgen', cond_false]
          have hmin :
              min (rest.findIdx (fun x => x.Hash == stopHash) + 1)
                (min (rest.findIdx (fun x => x.PrevBlockHash == List.nil) + 1 + 1)
                  (max 1 (maxNum - cnt)).toNat) = 1 := by
            omega
          rw [hmin]
          simp
        · rw [if_neg (by simp [hstop]), if_neg (by simp [hgen]), if_neg hcnt,
            List.findIdx_cons, List.findIdx_cons]
          simp only [hstop', hgen', cond_false]
          have htn : (max 1 (maxNum - cnt)).toNat =
              (max 1 (maxNum - (cnt + 1))).toNat + 1 := by
            omega
          have hmin :
              min (rest.findIdx (fun x => x.Hash == stopHash) + 1)
                (min (rest.findIdx (fun x => x.PrevBlockHash == List.nil) + 1 + 1)
                  ((max 1 (maxNum - (cnt + 1))).toNat + 1)) =
              min (rest.findIdx (fun x => x.Hash == stopHash))
                (min (rest.findIdx (fun x => x.PrevBlockHash == List.nil) + 1)
                  (max 1 (maxNum - (cnt + 1))).toNat) + 1 := by
            omega
          rw [htn, hmin, List.take_succ_cons, List.map_cons, ih (cnt + 1)]

/-- C5: `GetBlockHashes` walks from `beginHash` toward genesis and returns
the visited hashes in tip-to-parent order, stopping at the first of:
reaching `stopHash` (excluded), passing the genesis block, or having
collected `maxNum` hashes; consequently on a 5-block chain a query from
the tip with the genesis hash as stop and bound 1000 returns exactly the
4 non-genesis hashes in tip-to-parent order. -/
theorem getBlockHashes_spec :
    (∀ (chain : List Block) (stopHash : List Nat) (maxNum : Int),
      GetBlockHashes chain stopHash maxNum =
        (chain.take (stopCount chain stopHash maxNum)).map (fun b => b.Hash)) ∧
    (∀ b0 b1 b2 b3 b4 : Block,
      (b1.Hash == b0.Hash) = false → (b2.Hash == b0.Hash) = false →
      (b3.Hash == b0.Hash) = false → (b4.Hash == b0.Hash) = false →
      (b1.PrevBlockHash == List.nil) = false →
      (b2.PrevBlockHash == List.nil) = false →
      (b3.PrevBlockHash == List.nil) = false →
      (b4.PrevBlockHash == List.nil) = false →
      GetBlockHashes [b4, b3, b2, b1, b0] b0.Hash 1000 =
        [b4.Hash, b3.Hash, b2.Hash, b1.Hash]) := by
  constructor
  · intro chain stopHash maxNum
    have h := getBlockHashesLoop_eq stopHash maxNum chain 0
    simpa [GetBlockHashes, stopCount] using h
  · intro b0 b1 b2 b3 b4 h1 h2 h3 h4 g1 g2 g3 g4
    simp [GetBlockHashes, getBlockHashesLoop, h1, h2, h3, h4, g1, g2, g3, g4]

/-- A concrete height-2 block used by the witnesses. -/
def chainB2 : Block :=
  { Hash := [3], PrevBlockHash := [2], Height := 2, Nonce := 0,
    Transactions := [] }

/-- A concrete height-3 block used by the witnesses. -/
def chainB3 : Block :=
  { Hash := [4], PrevBlockHash := [3], Height := 3, Nonce := 0,
    Transactions := [] }

/-- A concrete height-4 block used by the witnesses. -/
def chainB4 : Block :=
  { Hash := [5], PrevBlockHash := [4], Height := 4, Nonce := 0,
    Transactions := [] }

theorem getBlockHashes_spec_witness :
    GetBlockHashes [chainB4, chainB3, chainB2, blockW, genesisW]
        genesisW.Hash 1000 =
      [chainB4.Hash, chainB3.Hash, chainB2.Hash, blockW.Hash] :=
  getBlockHashes_spec.2 genesisW blockW chainB2 chainB3 chainB4
    (by decide) (by decide) (by decide) (by decide)
    (by decide) (by decide) (by decide) (by decide)

/-- Modelled from the spec: the chain iterator's full yield starting at a
hash — the block stored under the current hash, then its parent's, and it
is terminal after the genesis block (empty `PrevBlockHash`) or a missing
hash.  The fuel only bounds the walk; one step more than the bucket size
covers any walk that does not revisit a hash. -/
def chainFrom (blocks : List (List Nat × Block)) :
    Nat → List Nat → List Block
  | 0, _ => []
  | fuel + 1, h =>
    match lookupA blocks h with
    | none => []
    | some b =>
      if b.PrevBlockHash == List.nil then [b]
      else b :: chainFrom blocks fuel b.PrevBlockHash

/-- The blocks `bc.Iterator()` yields: the walk from the in-memory
`lastBlockHash` back to genesis. -/
def bcChain (bc : Blockchain) : List Block :=
  chainFrom bc.bucket.blocks (bc.bucket.blocks.length + 1) bc.lastBlockHash

/-- Modelled from the spec: `storage.GetLastBlock` reads the reserved tip
key and the block bytes stored under it; either may be absent. -/
def storageGetLastBlock (b : Bucket) : Option (List Nat) × Option Block :=
  match b.lastHash with
  | none => (none, none)
  | some h => (some h, lookupA b.blocks h)

/-- Modelled from the spec: `storage.SaveBlock` persists the block and
advances the persisted tip ("on success persists the new block and
advances the tip"). -/
def storageSaveBlock (b : Bucket) (blk : Block) : Bucket :=
  { blocks := putA b.blocks blk.Hash blk, lastHash := some blk.Hash }

/-- `Blockchain.MineBlock` (blockchain.go:225).  The collaborators outside
this file's source are parameters: `sigVerify` is the transaction model's
signature check and `newBlock` the proof-of-work search
`NewBlock(transactions, prevHash, height, quit)`, returning the candidate
block and whether it was solved; `saveOk` says whether the store write
succeeds.  `none` models `log.Panic` (any invalid transaction, a failed
last-block read, or missing last-block data); the result carries the chain
state after the call, the returned block pointer (`none` is Go's `nil`)
and the solved flag. -/
def MineBlock (sigVerify : Transaction → List (List Nat × Transaction) → Bool)
    (newBlock : List Transaction → List Nat → Int → Block × Bool)
    (saveOk : Bool) (bc : Blockchain) (transactions : List Transaction) :
    Option (Blockchain × Option Block × Bool) :=
  if transactions.all
      (fun tx => VerifyTransaction sigVerify (bcChain bc) tx == some true) then
    match storageGetLastBlock bc.bucket with
    | (some lastHash, some lastBlock) =>
      let r := newBlock transactions lastHash (lastBlock.Height + 1)
      if r.2 then
        if saveOk then
          some ({ lastBlockHash := r.1.Hash,
                  bucket := storageSaveBlock bc.bucket r.1 }, some r.1, true)
        else some (bc, none, false)
      else some (bc, some r.1, false)
    | _ => none
  else none

/-- C4: a cancelled proof-of-work search (`solved == false`) persists
nothing: `MineBlock` returns carrying exactly the chain state it was
called with, so the stored blocks, the persisted tip key and hence the
best height are unchanged. -/
theorem mineBlock_cancelled_frame
    (sigVerify : Transaction → List (List Nat × Transaction) → Bool)
    (newBlock : List Transaction → List Nat → Int → Block × Bool)
    (saveOk : Bool) (bc : Blockchain) (txs : List Transaction)
    (lastHash : List Nat) (lastBlock : Block) (nb : Block)
    (hver : txs.all
      (fun tx => VerifyTransaction sigVerify (bcChain bc) tx == some true) = true)
    (hlast : storageGetLastBlock bc.bucket = (some lastHash, some lastBlock))
    (hpow : newBlock txs lastHash (lastBlock.Height + 1) = (nb, false)) :
    MineBlock sigVerify newBlock saveOk bc txs = some (bc, some nb, false) := by
  unfold MineBlock
  rw [if_pos hver, hlast]
  simp [hpow]

theorem mineBlock_cancelled_frame_witness :
    ([] : List Transaction).all
      (fun tx => VerifyTransaction (fun _ _ => false) (bcChain bcW) tx
        == some true) = true ∧
    storageGetLastBlock bcW.bucket = (some [1], some genesisW) ∧
    (fun (_ : List Transaction) (_ : List Nat) (_ : Int) => (blockW, false))
        [] [1] (genesisW.Height + 1) = (blockW, false) ∧
    MineBlock (fun _ _ => false)
        (fun (_ : List Transaction) (_ : List Nat) (_ : Int) => (blockW, false))
        true bcW [] = some (bcW, some blockW, false) :=
  ⟨by decide, by decide, by decide,
    mineBlock_cancelled_frame (fun _ _ => false)
      (fun _ _ _ => (blockW, false)) true bcW [] [1] genesisW blockW
      (by decide) (by decide) (by decide)⟩

/-- C6: every transaction of the batch is validated through
`VerifyTransaction` before anything else; if any of them does not verify
to true (explicit false, or the panic on a missing prior transaction) the
whole call is fatal (`log.Panic`, modelled as `none`) — the offending
transaction is not skipped. -/
theorem mineBlock_invalid_tx_fatal
    (sigVerify : Transaction → List (List Nat × Transaction) → Bool)
    (newBlock : List Transaction → List Nat → Int → Block × Bool)
    (saveOk : Bool) (bc : Blockchain) (txs : List Transaction)
    (hbad : ∃ tx ∈ txs,
      VerifyTransaction sigVerify (bcChain bc) tx ≠ some true) :
    MineBlock sigVerify newBlock saveOk bc txs = none := by
  have hall : txs.all
      (fun tx => VerifyTransaction sigVerify (bcChain bc) tx == some true)
      = false := by
    obtain ⟨tx, htx, hne⟩ := hbad
    apply List.all_eq_false.mpr
    exact ⟨tx, htx, by simpa using hne⟩
  unfold MineBlock
  rw [hall]
  simp

/-- A concrete non-coinbase transaction whose prior transaction is absent
from the chain, so its verification panics. -/
def txBad : Transaction :=
  { ID := [99],
    Inputs := [{ PreviousOutPoint := { Hash := [77], Index := 0 },
                 Signature := [], PubKey := [] }],
    Outputs := [] }

theorem mineBlock_invalid_tx_fatal_witness :
    (∃ tx ∈ [txBad],
      VerifyTransaction (fun _ _ => true) (bcChain bcW) tx ≠ some true) ∧
    MineBlock (fun _ _ => true)
      (fun (_ : List Transaction) (_ : List Nat) (_ : Int) => (blockW, true))
      true bcW [txBad] = none :=
  ⟨by decide,
    mineBlock_invalid_tx_fatal (fun _ _ => true)
      (fun _ _ _ => (blockW, true)) true bcW [txBad] (by decide)⟩

/-- C9: on cancellation `MineBlock` returns the partial candidate block —
not `nil` — paired with `solved == false`; the returned block is `nil`
only when persisting an already-solved block fails (which also returns
`false`), so callers must inspect the boolean, not the block's nil-ness,
to detect cancellation. -/
theorem mineBlock_nil_only_on_save_failure
    (sigVerify : Transaction → List (List Nat × Transaction) → Bool)
    (newBlock : List Transaction → List Nat → Int → Block × Bool)
    (saveOk : Bool) (bc : Blockchain) (txs : List Transaction)
    (lastHash : List Nat) (lastBlock : Block)
    (hver : txs.all
      (fun tx => VerifyTransaction sigVerify (bcChain bc) tx == some true) = true)
    (hlast : storageGetLastBlock bc.bucket = (some lastHash, some lastBlock)) :
    (∀ nb : Block, newBlock txs lastHash (lastBlock.Height + 1) = (nb, false) →
      MineBlock sigVerify newBlock saveOk bc txs = some (bc, some nb, false)) ∧
    (∀ (st : Blockchain) (b? : Option Block) (solved : Bool),
      MineBlock sigVerify newBlock saveOk bc txs = some (st, b?, solved) →
      b? = none →
      solved = false ∧ saveOk = false ∧
        (newBlock txs lastHash (lastBlock.Height + 1)).2 = true) := by
  refine ⟨?_, ?_⟩
  · intro nb hpow
    unfold MineBlock
    rw [if_pos hver, hlast]
    simp [hpow]
  · intro st b? solved hres hnil
    unfold MineBlock at hres
    rw [if_pos hver, hlast] at hres
    dsimp only at hres
    cases hr : newBlock txs lastHash (lastBlock.Height + 1) with
    | mk nb sol =>
      rw [hr] at hres
      cases sol with
      | false =>
        subst hnil
        simp at hres
      | true =>
        cases saveOk with
        | false =>
          subst hnil
          simp at hres
          exact ⟨hres.2, rfl, rfl⟩
        | true =>
          subst hnil
          simp at hres

theorem mineBlock_nil_only_on_save_failure_witness :
    MineBlock (fun _ _ => false)
      (fun (_ : List Transaction) (_ : List Nat) (_ : Int) => (chainB2, false))
      true bcW [] = some (bcW, some chainB2, false) :=
  (mineBlock_nil_only_on_save_failure (fun _ _ => false)
      (fun _ _ _ => (chainB2, false)) true bcW [] [1] genesisW
      (by decide) (by decide)).1 chainB2 (by decide)

/-- The unspent-output map `FindUTXO` builds, keyed by transaction id
(Go keys by the id's hex string, an injective image). -/
abbrev UTXOMap := List (List Nat × List TXOutput)

/-- The spent-output bookkeeping map of `FindUTXO`: per transaction id,
the output indices already seen referenced by an input. -/
abbrev SpentMap := List (List Nat × List Int)

/-- The inner spent test of `FindUTXO`'s `Outputs:` loop: is output index
`i` of transaction `k` recorded as spent? (`spentTXOs[txID]` empty or
absent means no). -/
def spentContains (spent : SpentMap) (k : List Nat) (i : Int) : Bool :=
  ((lookupA spent k).getD []).any (fun j => j == i)

/-- `UTXO[txID] = append(UTXO[txID], out)`. -/
def addToUTXO (utxo : UTXOMap) (k : List Nat) (out : TXOutput) : UTXOMap :=
  putA utxo k ((lookupA utxo k).getD [] ++ [out])

/-- `spentTXOs[inTxID] = append(spentTXOs[inTxID], int(in.PreviousOutPoint.Index))`. -/
def addToSpent (spent : SpentMap) (k : List Nat) (i : Int) : SpentMap :=
  putA spent k ((lookupA spent k).getD [] ++ [i])

/-- The `Outputs:` loop of `FindUTXO` over an enumerated output list:
append each output whose index is not recorded as spent. -/
def outputsFold (spent : SpentMap) (k : List Nat)
    (ps : List (Nat × TXOutput)) (utxo : UTXOMap) : UTXOMap :=
  ps.foldl
    (fun u p =>
      if spentContains spent k (Int.ofNat p.1) then u else addToUTXO u k p.2)
    utxo

/-- One transaction's output pass (uses the spent map as it stood before
this transaction — inputs are only recorded afterwards). -/
def processTxOutputs (spent : SpentMap) (tx : Transaction)
    (utxo : UTXOMap) : UTXOMap :=
  outputsFold spent tx.ID tx.Outputs.enum utxo

/-- One transaction's input pass: record every referenced outpoint as
spent, unless the transaction is a coinbase. -/
def processTxInputs (tx : Transaction) (spent : SpentMap) : SpentMap :=
  if tx.IsCoinBase then spent
  else tx.Inputs.foldl
    (fun s vin =>
      addToSpent s vin.PreviousOutPoint.Hash vin.PreviousOutPoint.Index)
    spent

/-- One iteration of `FindUTXO`'s per-transaction loop: outputs first
(against the pre-transaction spent map), then inputs. -/
def processTx (st : UTXOMap × SpentMap) (tx : Transaction) :
    UTXOMap × SpentMap :=
  (processTxOutputs st.2 tx st.1, processTxInputs tx st.2)

/-- The block loop of `Blockchain.FindUTXO` (blockchain.go:272): process
each visited block's transactions in order, stopping after the genesis
block. -/
def findUTXOLoop : List Block → UTXOMap × SpentMap → UTXOMap × SpentMap
  | [], st => st
  | b :: rest, st =>
    let st1 := b.Transactions.foldl processTx st
    if b.PrevBlockHash == List.nil then st1 else findUTXOLoop rest st1

/-- `Blockchain.FindUTXO` over the iterator's yield: the unspent-output
map after scanning the whole chain from empty maps. -/
def FindUTXO (chain : List Block) : UTXOMap :=
  (findUTXOLoop chain ([], [])).1

/-- `processTx` folded over a flat transaction list. -/
def processAll (ts : List Transaction) (st : UTXOMap × SpentMap) :
    UTXOMap × SpentMap :=
  ts.foldl processTx st

/-- Does non-coinbase transaction `tx` spend output `i` of transaction
`k`?  The specification-side notion of a consumed output. -/
def spendsAt (tx : Transaction) (k : List Nat) (i : Int) : Bool :=
  !tx.IsCoinBase && tx.Inputs.any
    (fun vin => vin.PreviousOutPoint.Hash == k && vin.PreviousOutPoint.Index == i)

/-- Does any transaction of the list spend output `i` of transaction `k`? -/
def spentByList (ts : List Transaction) (k : List Nat) (i : Int) : Bool :=
  ts.any (fun tx => spendsAt tx k i)

/-- Is output `i` of transaction `k` consumed by some input embedded in
the canonical chain? -/
def SpendsOutput (chain : List Block) (k : List Nat) (i : Int) : Bool :=
  spentByList (chainTxs chain) k i

/-- The outputs of a list surviving an index-level spent predicate, in
order. -/
def filterOutsByIdx (cond : Int → Bool) (outs : List TXOutput) :
    List TXOutput :=
  outs.enum.filterMap
    (fun p => if cond (Int.ofNat p.1) then none else some p.2)

/-- The specification-side expected value of the UTXO map at `tx.ID`: the
transaction's outputs that no canonical-chain input consumes. -/
def unspentOutputs (chain : List Block) (tx : Transaction) : List TXOutput :=
  filterOutsByIdx (fun i => SpendsOutput chain tx.ID i) tx.Outputs

/-- Does a non-coinbase input of `tx` reference transaction `k` (at any
output index)? -/
def spendsId (tx : Transaction) (k : List Nat) : Bool :=
  !tx.IsCoinBase && tx.Inputs.any (fun vin => vin.PreviousOutPoint.Hash == k)

/-- Scan-order hypothesis: no transaction is spent by itself or by a
transaction at or after it in the tip-to-genesis scan — inputs always
reference transactions strictly deeper in the chain, as any chain without
forward or intra-block backward references satisfies. -/
def wellOrdered : List Transaction → Bool
  | [] => true
  | tx :: rest =>
    !(spendsId tx tx.ID) && rest.all (fun t => !(spendsId t tx.ID)) &&
      wellOrdered rest

/-- Transaction ids are pairwise distinct along the scan. -/
def nodupIds : List Transaction → Bool
  | [] => true
  | tx :: rest => rest.all (fun t => !(t.ID == tx.ID)) && nodupIds rest

theorem findUTXOLoop_eq_processAll (chain : List Block)
    (hwf : noEarlyGenesis chain = true) (st : UTXOMap × SpentMap) :
    findUTXOLoop chain st = processAll (chainTxs chain) st := by
  induction chain generalizing st with
  | nil => simp [findUTXOLoop, processAll, chainTxs]
  | cons b rest ih =>
    cases rest with
    | nil =>
      rw [findUTXOLoop]
      have : chainTxs [b] = b.Transactions := by simp [chainTxs]
      rw [this]
      split <;> simp [processAll, findUTXOLoop]
    | cons r rs =>
      have hg : (b.PrevBlockHash == List.nil) = false := by
        by_contra hc
        simp only [noEarlyGenesis, Bool.and_eq_true, Bool.not_eq_true'] at hwf
        simp [hwf.1] at hc
      have hrest : noEarlyGenesis (r :: rs) = true := by
        simp only [noEarlyGenesis, Bool.and_eq_true] at hwf
        exact hwf.2
      rw [findUTXOLoop, hg]
      simp only [Bool.false_eq_true, if_false]
      rw [ih hrest]
      simp [processAll, chainTxs, List.foldl_append]

theorem spentContains_addToSpent (s : SpentMap) (h k : List Nat)
    (j i : Int) :
    spentContains (addToSpent s h j) k i =
      (spentContains s k i || (h == k && j == i)) := by
  by_cases hk : h = k
  · subst hk
    simp [spentContains, addToSpent, lookupA_putA_self]
  · have hk' : (h == k) = false := by simp [hk]
    simp [spentContains, addToSpent, lookupA_putA_of_ne _ _ _ _ (Ne.symm hk), hk']

theorem spentContains_foldInputs (inputs : List TXInput) (s : SpentMap)
    (k : List Nat) (i : Int) :
    spentContains
        (inputs.foldl
          (fun s vin =>
            addToSpent s vin.PreviousOutPoint.Hash vin.PreviousOutPoint.Index)
          s) k i =
      (spentContains s k i || inputs.any
        (fun vin => vin.PreviousOutPoint.Hash == k &&
          vin.PreviousOutPoint.Index == i)) := by
  induction inputs generalizing s with
  | nil => simp
  | cons vin rest ih =>
    simp only [List.foldl_cons, List.any_cons]
    rw [ih, spentContains_addToSpent, Bool.or_assoc]

theorem spentContains_processTxInputs (tx : Transaction) (s : SpentMap)
    (k : List Nat) (i : Int) :
    spentContains (processTxInputs tx s) k i =
      (spentContains s k i || spendsAt tx k i) := by
  unfold processTxInputs spendsAt
  cases hcb : tx.IsCoinBase with
  | true => simp [hcb]
  | false => simp [hcb, spentContains_foldInputs]

theorem spentByList_cons (t : Transaction) (rest : List Transaction)
    (k : List Nat) (i : Int) :
    spentByList (t :: rest) k i = (spendsAt t k i || spentByList rest k i) := by
  simp [spentByList]

theorem spentContains_processAll (ts : List Transaction)
    (st : UTXOMap × SpentMap) (k : List Nat) (i : Int) :
    spentContains (processAll ts st).2 k i =
      (spentContains st.2 k i || spentByList ts k i) := by
  induction ts generalizing st with
  | nil => simp [processAll, spentByList]
  | cons t rest ih =>
    simp only [processAll, List.foldl_cons]
    rw [show List.foldl processTx (processTx st t) rest =
          processAll rest (processTx st t) from rfl,
      ih, spentByList_cons]
    simp only [processTx]
    rw [spentContains_processTxInputs, Bool.or_assoc]

theorem spendsAt_eq_false_of_spendsId (tx : Transaction) (k : List Nat)
    (i : Int) (h : spendsId tx k = false) : spendsAt tx k i = false := by
  unfold spendsId at h
  unfold spendsAt
  cases hcb : tx.IsCoinBase with
  | true => simp
  | false =>
    simp only [hcb, Bool.not_false, Bool.true_and] at h ⊢
    rw [List.any_eq_false] at h ⊢
    intro vin hvin
    simp only [Bool.and_eq_true, not_and]
    intro hh
    exact absurd hh (h vin hvin)

theorem lookupA_outputsFold_of_ne (spent : SpentMap) (k : List Nat)
    (ps : List (Nat × TXOutput)) (utxo : UTXOMap) (k' : List Nat)
    (h : k' ≠ k) :
    lookupA (outputsFold spent k ps utxo) k' = lookupA utxo k' := by
  induction ps generalizing utxo with
  | nil => rfl
  | cons p ps ih =>
    rw [show outputsFold spent k (p :: ps) utxo =
        outputsFold spent k ps
          (if spentContains spent k (Int.ofNat p.1) then utxo
            else addToUTXO utxo k p.2) from rfl]
    rw [ih]
    by_cases hc : spentContains spent k (Int.ofNat p.1) = true
    · rw [if_pos hc]
    · rw [if_neg hc]
      exact lookupA_putA_of_ne _ _ _ _ h

theorem lookupA_outputsFold_getD (spent : SpentMap) (k : List Nat)
    (ps : List (Nat × TXOutput)) (utxo : UTXOMap) :
    (lookupA (outputsFold spent k ps utxo) k).getD [] =
      (lookupA utxo k).getD [] ++
        ps.filterMap (fun p =>
          if spentContains spent k (Int.ofNat p.1) then none else some p.2) := by
  induction ps generalizing utxo with
  | nil => simp [outputsFold]
  | cons p ps ih =>
    rw [show outputsFold spent k (p :: ps) utxo =
        outputsFold spent k ps
          (if spentContains spent k (Int.ofNat p.1) then utxo
            else addToUTXO utxo k p.2) from rfl]
    rw [List.filterMap_cons]
    by_cases hc : spentContains spent k (Int.ofNat p.1) = true
    · rw [if_pos hc, if_pos hc, ih]
    · rw [if_neg hc, if_neg hc, ih]
      rw [show lookupA (addToUTXO utxo k p.2) k =
          some ((lookupA utxo k).getD [] ++ [p.2]) from lookupA_putA_self _ _ _]
      simp

theorem lookupA_processAll_fst_of_ne (ts : List Transaction)
    (st : UTXOMap × SpentMap) (k : List Nat)
    (h : ∀ t ∈ ts, t.ID ≠ k) :
    lookupA (processAll ts st).1 k = lookupA st.1 k := by
  induction ts generalizing st with
  | nil => rfl
  | cons t rest ih =>
    rw [show processAll (t :: rest) st = processAll rest (processTx st t) from rfl]
    rw [ih _ (fun x hx => h x (List.mem_cons_of_mem _ hx))]
    exact lookupA_outputsFold_of_ne _ _ _ _ _
      (h t (List.mem_cons_self _ _)).symm

theorem lookupA_processAll_getD (ts : List Transaction) (u0 : UTXOMap)
    (s0 : SpentMap) (hord : wellOrdered ts = true)
    (hnd : nodupIds ts = true)
    (hu : ∀ t ∈ ts, lookupA u0 t.ID = none) :
    ∀ tx ∈ ts,
      (lookupA (processAll ts (u0, s0)).1 tx.ID).getD [] =
        filterOutsByIdx
          (fun i => spentContains s0 tx.ID i || spentByList ts tx.ID i)
          tx.Outputs := by
  induction ts generalizing u0 s0 with
  | nil =>
    intro tx htx
    cases htx
  | cons t rest ih =>
    have hords : spendsId t t.ID = false ∧
        (∀ x ∈ rest, spendsId x t.ID = false) ∧ wellOrdered rest = true := by
      have h := hord
      rw [wellOrdered, Bool.and_eq_true, Bool.and_eq_true] at h
      refine ⟨by simpa using h.1.1, ?_, h.2⟩
      intro x hx
      have := List.all_eq_true.mp h.1.2 x hx
      simpa using this
    have hnds : (∀ x ∈ rest, x.ID ≠ t.ID) ∧ nodupIds rest = true := by
      have h := hnd
      rw [nodupIds, Bool.and_eq_true] at h
      refine ⟨?_, h.2⟩
      intro x hx
      have := List.all_eq_true.mp h.1 x hx
      simpa using this
    intro tx htx
    rw [show processAll (t :: rest) (u0, s0) =
        processAll rest (processTx (u0, s0) t) from rfl]
    rw [show processTx (u0, s0) t =
        (processTxOutputs s0 t u0, processTxInputs t s0) from rfl]
    rcases List.mem_cons.mp htx with heq | hmem
    · subst heq
      rw [lookupA_processAll_fst_of_ne rest _ tx.ID hnds.1]
      rw [show lookupA (processTxOutputs s0 tx u0, processTxInputs tx s0).1 tx.ID
          = lookupA (outputsFold s0 tx.ID tx.Outputs.enum u0) tx.ID from rfl]
      rw [lookupA_outputsFold_getD, hu tx (List.mem_cons_self _ _)]
      rw [Option.getD_none, List.nil_append]
      have hsb : ∀ i : Int, spentByList (tx :: rest) tx.ID i = false := by
        intro i
        rw [spentByList_cons, spendsAt_eq_false_of_spendsId tx tx.ID i hords.1]
        rw [Bool.false_or, spentByList, List.any_eq_false]
        intro x hx
        rw [spendsAt_eq_false_of_spendsId x tx.ID i (hords.2.1 x hx)]
        simp
      unfold filterOutsByIdx
      congr 1
      funext p
      simp only [hsb, Bool.or_false]
    · have hu1 : ∀ x ∈ rest, lookupA (processTxOutputs s0 t u0) x.ID = none := by
        intro x hx
        rw [show lookupA (processTxOutputs s0 t u0) x.ID
            = lookupA (outputsFold s0 t.ID t.Outputs.enum u0) x.ID from rfl]
        rw [lookupA_outputsFold_of_ne _ _ _ _ _ (hnds.1 x hx)]
        exact hu x (List.mem_cons_of_mem _ hx)
      rw [ih (processTxOutputs s0 t u0) (processTxInputs t s0)
        hords.2.2 hnds.2 hu1 tx hmem]
      unfold filterOutsByIdx
      congr 1
      funext p
      simp only [spentContains_processTxInputs, spentByList_cons, Bool.or_assoc]

/-- C3: for every chain (no forward or intra-block backward spends,
pairwise distinct transaction ids), the map `FindUTXO` returns holds, for
each chain transaction, exactly its outputs that are not referenced by
any non-coinbase input anywhere in the chain: spent outputs are absent,
unspent outputs are present (an id all of whose outputs are spent has no
entry, so its value reads as the empty list). -/
theorem findUTXO_spec (chain : List Block)
    (hwf : noEarlyGenesis chain = true)
    (hnd : nodupIds (chainTxs chain) = true)
    (hord : wellOrdered (chainTxs chain) = true) :
    ∀ tx ∈ chainTxs chain,
      (lookupA (FindUTXO chain) tx.ID).getD [] = unspentOutputs chain tx := by
  intro tx htx
  have hu : ∀ t ∈ chainTxs chain, lookupA ([] : UTXOMap) t.ID = none :=
    fun _ _ => rfl
  have h := lookupA_processAll_getD (chainTxs chain) [] [] hord hnd hu tx htx
  have hfun : (fun i => spentContains ([] : SpentMap) tx.ID i ||
      spentByList (chainTxs chain) tx.ID i) =
      (fun i => spentByList (chainTxs chain) tx.ID i) := by
    funext i
    rw [show spentContains ([] : SpentMap) tx.ID i = false from rfl,
      Bool.false_or]
  unfold FindUTXO
  rw [findUTXOLoop_eq_processAll chain hwf, h, hfun]
  rfl

/-- A concrete coinbase transaction for the second block. -/
def cbTx1 : Transaction :=
  { ID := [11],
    Inputs := [{ PreviousOutPoint := { Hash := [0], Index := -1 },
                 Signature := [], PubKey := [] }],
    Outputs := [{ Value := 10, PubKeyHash := [8] }] }

/-- A concrete transaction spending `cbTx0`'s only output. -/
def txSpend : Transaction :=
  { ID := [12],
    Inputs := [{ PreviousOutPoint := { Hash := [10], Index := 0 },
                 Signature := [1], PubKey := [7] }],
    Outputs := [{ Value := 4, PubKeyHash := [8] },
                { Value := 6, PubKeyHash := [9] }] }

/-- A concrete height-1 block containing a coinbase and a spend. -/
def blockSpendW : Block :=
  { Hash := [2], PrevBlockHash := [1], Height := 1, Nonce := 0,
    Transactions := [cbTx1, txSpend] }

/-- A concrete two-block chain, tip first. -/
def chainW : List Block := [blockSpendW, genesisW]

theorem findUTXO_spec_witness :
    noEarlyGenesis chainW = true ∧
    nodupIds (chainTxs chainW) = true ∧
    wellOrdered (chainTxs chainW) = true ∧
    (lookupA (FindUTXO chainW) cbTx0.ID).getD [] = unspentOutputs chainW cbTx0 :=
  ⟨by decide, by decide, by decide,
    findUTXO_spec chainW (by decide) (by decide) (by decide) cbTx0 (by decide)⟩

end Dotcoin
